import Mathlib

/-!
Shallow embedding of the `field_access_proxy` header-only C++ library
(`src/include/field_access_proxy/field_access_proxy.h`): accessor proxies
(`Field`, `BitField`, `BoolField`, `Constant`, `FlexibleArrayField`),
the formatting mixin, and `PrintFields`, together with theorems checking
the natural-language specification against this embedding.

Records are modelled as values of an abstract type `S`; a C++
pointer-to-member locator becomes a getter/setter pair on `S` (the lens
law `get (set s v) = v` is the memory semantics of writing then reading
one member and appears as a hypothesis where a proof needs it).
Machine integers are modelled as `Nat` with explicit widths: an integral
field value of byte width `w` is a `Nat` below `256 ^ w`.
-/

namespace FieldAccessProxy

variable {S V T E A : Type}

/-- Byte order of an integral field, mirroring `std::endian`. -/
inductive Endian where
  | little : Endian
  | big : Endian
deriving DecidableEq

/-- The platform's native byte order (`std::endian::native`); the library's
test platform is little-endian. -/
def Endian.native : Endian := Endian.little

/-- `std::byteswap` on a `w`-byte unsigned integral value: reverses the low
`w` bytes of `x`. -/
def byteswap : Nat → Nat → Nat
  | 0, _ => 0
  | w + 1, x => x % 256 * 256 ^ w + byteswap w (x / 256)

/-- The engine's accessor contract: the capability set
`{Get(record) -> Value, Set(record, Value)}` over a record type `S`.
`Set` returns the updated record (explicit state passing for the C++
in-place mutation). -/
structure Accessor (S V : Type) where
  Get : S → V
  Set : S → V → S

/-- `Field` for a non-integral value type: binds a name and a
pointer-to-member locator (modelled as a getter/setter pair).
`Get`/`Set` apply no transform (`field_access_proxy.h` lines 168-184,
non-integral branch). -/
structure Field (S V : Type) where
  name : String
  fieldGet : S → V
  fieldSet : S → V → S

/-- `Field::Get`, non-integral branch: returns the stored member value. -/
def Field.Get (f : Field S V) (obj : S) : V :=
  f.fieldGet obj

/-- `Field::Set`, non-integral branch: writes the value to the member. -/
def Field.Set (f : Field S V) (obj : S) (v : V) : S :=
  f.fieldSet obj v

/-- View a `Field` through the generic accessor contract. -/
def Field.toAccessor (f : Field S V) : Accessor S V :=
  ⟨f.Get, f.Set⟩

/-- `Field` for an integral value type of byte width `width`: carries a
byte-order tag (`endian_`, defaulting to native). `rawGet`/`rawSet` are
the pointer-to-member locator, reading/writing the raw stored bytes. -/
structure IntField (S : Type) where
  name : String
  width : Nat
  rawGet : S → Nat
  rawSet : S → Nat → S
  endian : Endian

/-- `Field::Get`, integral branch:
`endian_ == std::endian::native ? obj.*field_ : std::byteswap(obj.*field_)`. -/
def IntField.Get (f : IntField S) (obj : S) : Nat :=
  if f.endian = Endian.native then f.rawGet obj else byteswap f.width (f.rawGet obj)

/-- `Field::Set`, integral branch:
`obj.*field_ = endian_ == std::endian::native ? val : std::byteswap(val)`. -/
def IntField.Set (f : IntField S) (obj : S) (v : Nat) : S :=
  f.rawSet obj (if f.endian = Endian.native then v else byteswap f.width v)

/-- View an `IntField` through the generic accessor contract. -/
def IntField.toAccessor (f : IntField S) : Accessor S Nat :=
  ⟨f.Get, f.Set⟩

/-- Modelled from the spec: the external Bit Ops collaborator
(`bit_manip`) is not part of this repository; per the spec its
`GetBits(integral, offset, width)` extracts `width` bits starting at bit
`offset` (measured from the least significant bit). -/
def GetBits (x off w : Nat) : Nat :=
  x / 2 ^ off % 2 ^ w

/-- Modelled from the spec: `SetBits(integral, value, offset, width)`
overwrites the `width`-bit range at bit `offset` with `value` truncated to
`width` bits, keeping the bits below and above the range. -/
def SetBits (x v off w : Nat) : Nat :=
  x % 2 ^ off + v % 2 ^ w * 2 ^ off + x / 2 ^ (off + w) * 2 ^ (off + w)

/-- Modelled from the spec: `IsBitSet(integral, pos)` tests the bit at
position `pos`. -/
def IsBitSet (x pos : Nat) : Bool :=
  Nat.testBit x pos

/-- Modelled from the spec: `SetBit(integral, pos)` sets the bit at `pos`. -/
def SetBit (x pos : Nat) : Nat :=
  SetBits x 1 pos 1

/-- Modelled from the spec: `ClearBit(integral, pos)` clears the bit at
`pos`. -/
def ClearBit (x pos : Nat) : Nat :=
  SetBits x 0 pos 1

/-- `BitField` (non-boolean specialization): narrows a parent accessor's
integral value to the bit range `[bitOffset, bitOffset + bitWidth)`
(`field_access_proxy.h` lines 198-280). -/
structure BitField (S : Type) where
  name : String
  parent : Accessor S Nat
  bitOffset : Nat
  bitWidth : Nat

/-- `BitField::Get`: obtain the parent value, then
`bit::GetBits(field, bit_offset_, bit_width_)`. -/
def BitField.Get (b : BitField S) (obj : S) : Nat :=
  GetBits (b.parent.Get obj) b.bitOffset b.bitWidth

/-- `BitField::Set`: read-modify-write — obtain the parent value,
`bit::SetBits` the range, write the whole parent value back. -/
def BitField.Set (b : BitField S) (obj : S) (v : Nat) : S :=
  b.parent.Set obj (SetBits (b.parent.Get obj) v b.bitOffset b.bitWidth)

/-- `BoolField = BitField<Parent, bool>`: a single bit at `bitPos`. -/
structure BoolField (S : Type) where
  name : String
  parent : Accessor S Nat
  bitPos : Nat

/-- `BitField::Get`, boolean branch: `bit::IsBitSet(field, bit_offset_)`. -/
def BoolField.Get (b : BoolField S) (obj : S) : Bool :=
  IsBitSet (b.parent.Get obj) b.bitPos

/-- `BitField::Set`, boolean branch: `SetBit` when the value is true,
`ClearBit` otherwise, then write the whole parent value back. -/
def BoolField.Set (b : BoolField S) (obj : S) (v : Bool) : S :=
  b.parent.Set obj
    (if v then SetBit (b.parent.Get obj) b.bitPos else ClearBit (b.parent.Get obj) b.bitPos)

/-- `Constant`: wraps a fixed value (`field_access_proxy.h` lines 404-419). -/
structure Constant (T : Type) where
  val : T

/-- `Constant::Get`: always returns the stored constant value, ignoring the
record. -/
def Constant.Get (c : Constant T) (_obj : S) : T :=
  c.val

/-- `Constant::Set`: intentionally does nothing — the record is unchanged. -/
def Constant.Set (_c : Constant T) (obj : S) (_v : T) : S :=
  obj

/-- View a `Constant` through the generic accessor contract over records of
type `S`. -/
def Constant.toAccessor (c : Constant T) (S : Type) : Accessor S T :=
  ⟨fun obj => c.Get obj, fun obj v => c.Set obj v⟩

/-- `FlexibleArrayField`: a variable-length trailing array whose element
count comes from a composed count accessor (`count_`), minus the
`min_fixed_count` baseline. `arrGet obj i` / `arrSet obj i e` model
reading/writing the element `i` slots after the array locator
(`GetAddr(obj) + i` in the C++). -/
structure FlexibleArrayField (S E : Type) where
  name : String
  countAcc : Accessor S Nat
  minFixedCount : Nat
  arrGet : S → Nat → E
  arrSet : S → Nat → E → S

/-- `FlexibleArrayField::GetAll`: read the raw count, subtract
`min_fixed_count_`, and copy that many elements starting at the locator
(`Value(base, base + count)`; empty when the logical count is zero). -/
def FlexibleArrayField.GetAll (f : FlexibleArrayField S E) (obj : S) : List E :=
  let total := f.countAcc.Get obj
  let cnt := total - f.minFixedCount
  (List.range cnt).map (f.arrGet obj)

/-- `FlexibleArrayField::GetAt`: `*(base + pos)`. -/
def FlexibleArrayField.GetAt (f : FlexibleArrayField S E) (obj : S) (pos : Nat) : E :=
  f.arrGet obj pos

/-- `std::ranges::copy(vals, base)` inside `SetAll`: sequential element
writes at increasing positions starting at `i`. -/
def FlexibleArrayField.copyElems (f : FlexibleArrayField S E) (obj : S) (i : Nat) :
    List E → S
  | [] => obj
  | e :: rest => f.copyElems (f.arrSet obj i e) (i + 1) rest

/-- `FlexibleArrayField::SetAll`: copy the values to the array locator,
then, when `update_count` is set, write `vals.size() + min_fixed_count_`
through the count accessor. -/
def FlexibleArrayField.SetAll (f : FlexibleArrayField S E) (obj : S) (vals : List E)
    (updateCount : Bool) : S :=
  let written := f.copyElems obj 0 vals
  if updateCount then f.countAcc.Set written (vals.length + f.minFixedCount) else written

/-- `FlexibleArrayField::SetAt`: `*(base + pos) = elem`. -/
def FlexibleArrayField.SetAt (f : FlexibleArrayField S E) (obj : S) (pos : Nat) (e : E) : S :=
  f.arrSet obj pos e

/-- `FlexibleArrayField::Get`: same as `GetAll`. -/
def FlexibleArrayField.Get (f : FlexibleArrayField S E) (obj : S) : List E :=
  f.GetAll obj

/-- `FlexibleArrayField::Set`: same as `SetAll` with `update_count = true`. -/
def FlexibleArrayField.Set (f : FlexibleArrayField S E) (obj : S) (vals : List E) : S :=
  f.SetAll obj vals true

/-- The `Formattable` mixin's data: the accessor's display name, its `Get`,
and the optional custom formatter supplied at construction. -/
structure Formattable (S V : Type) where
  name : String
  get : S → V
  formatter : Option (S → V → String)

/-- `Formattable::Format`: when a custom formatter was supplied it receives
`(record, value)`; otherwise the default `std::format("{}: {}", name, val)`
stringifier is used (requires the value type to be text-representable,
modelled by the `ToString` instance). -/
def Formattable.Format [ToString V] (f : Formattable S V) (obj : S) : String :=
  match f.formatter with
  | some g => g obj (f.get obj)
  | none => f.name ++ ": " ++ toString (f.get obj)

/-- `PrintFields`: fold over the ordered collection of accessors (erased to
their `Format` thunks), appending each one's `Format(record)` followed by
`'\n'` to the output stream (modelled as a `String`). -/
def PrintFields (os : String) (obj : S) (fields : List (S → String)) : String :=
  fields.foldl (fun acc fmt => acc ++ fmt obj ++ "\n") os

/-- A concrete record layout used as a test structure: a count member, a
16-bit integral member, and a trailing array. -/
structure DemoRec where
  cnt : Nat
  word : Nat
  arr : List Nat
deriving DecidableEq

/-- Accessor for the `cnt` member of `DemoRec` (a pointer-to-member lens). -/
def cntAcc : Accessor DemoRec Nat :=
  ⟨fun r => r.cnt, fun r v => ⟨v, r.word, r.arr⟩⟩

/-- `Field` proxy for `DemoRec.cnt`. -/
def cntField : Field DemoRec Nat :=
  ⟨"count", fun r => r.cnt, fun r v => ⟨v, r.word, r.arr⟩⟩

/-- Non-native-endian 2-byte `Field` proxy for `DemoRec.word`. -/
def wordFieldBig : IntField DemoRec :=
  ⟨"word", 2, fun r => r.word, fun r v => ⟨r.cnt, v, r.arr⟩, Endian.big⟩

/-- Native-endian 2-byte `Field` proxy for `DemoRec.word`. -/
def wordFieldNative : IntField DemoRec :=
  ⟨"word", 2, fun r => r.word, fun r v => ⟨r.cnt, v, r.arr⟩, Endian.little⟩

/-- Element read at the `DemoRec` trailing array locator. -/
def demoArrGet (r : DemoRec) (i : Nat) : Nat :=
  r.arr.getD i 0

/-- Element write at the `DemoRec` trailing array locator. -/
def demoArrSet (r : DemoRec) (i : Nat) (e : Nat) : DemoRec :=
  ⟨r.cnt, r.word, r.arr.set i e⟩

/-- Flexible-array proxy over `DemoRec` counting through `cnt`, with
`min_fixed_count = 1`. -/
def demoFlex : FlexibleArrayField DemoRec Nat :=
  ⟨"data", cntAcc, 1, demoArrGet, demoArrSet⟩

/-- Flexible-array proxy over `DemoRec` whose count accessor is the
`Constant 5` proxy (`min_fixed_count = 0`). -/
def demoFlexConst : FlexibleArrayField DemoRec Nat :=
  ⟨"data", (Constant.mk 5).toAccessor DemoRec, 0, demoArrGet, demoArrSet⟩

/-- The same flexible-array proxy with a different `min_fixed_count`
baseline, all other construction arguments unchanged. -/
def FlexibleArrayField.withMin (f : FlexibleArrayField S E) (m : Nat) :
    FlexibleArrayField S E :=
  ⟨f.name, f.countAcc, m, f.arrGet, f.arrSet⟩

/-- `BitField` proxy over `DemoRec.cnt`: bits 2..4. -/
def demoBitField : BitField DemoRec :=
  ⟨"mid", cntAcc, 2, 3⟩

/-- `BoolField` proxy over `DemoRec.cnt`: the bit at position 4. -/
def demoBoolField : BoolField DemoRec :=
  ⟨"flag", cntAcc, 4⟩

/-- A formattable view of `DemoRec.word` named `X` with no custom
formatter. -/
def demoFmt : Formattable DemoRec Nat :=
  ⟨"X", fun r => r.word, none⟩

/-- A formattable view of `DemoRec.word` with a custom formatter. -/
def demoFmtCustom : Formattable DemoRec Nat :=
  ⟨"X", fun r => r.word, some (fun _ v => "custom " ++ toString v)⟩

end FieldAccessProxy

namespace FieldAccessProxy

theorem byteswap_lt : ∀ (w x : Nat), byteswap w x < 256 ^ w
  | 0, _ => by simp [byteswap]
  | w + 1, x => by
    have h1 : x % 256 < 256 := Nat.mod_lt x (by norm_num)
    have h2 := byteswap_lt w (x / 256)
    have h3 : x % 256 * 256 ^ w + byteswap w (x / 256) < (x % 256 + 1) * 256 ^ w := by
      have := Nat.add_lt_add_left h2 (x % 256 * 256 ^ w)
      calc x % 256 * 256 ^ w + byteswap w (x / 256)
          < x % 256 * 256 ^ w + 256 ^ w := this
        _ = (x % 256 + 1) * 256 ^ w := by ring
    have h4 : (x % 256 + 1) * 256 ^ w ≤ 256 * 256 ^ w :=
      Nat.mul_le_mul_right _ (by omega)
    have h5 : (256 : Nat) ^ (w + 1) = 256 * 256 ^ w := by ring
    simp only [byteswap]
    omega

theorem byteswap_snoc : ∀ (w x : Nat),
    byteswap (w + 1) x = byteswap w (x % 256 ^ w) * 256 + x / 256 ^ w % 256
  | 0, x => by simp [byteswap]
  | w + 1, x => by
    have ih := byteswap_snoc w (x / 256)
    have e1 : x % 256 ^ (w + 1) % 256 = x % 256 :=
      Nat.mod_mod_of_dvd x (dvd_pow_self 256 (Nat.succ_ne_zero w))
    have e2 : x % 256 ^ (w + 1) / 256 = x / 256 % 256 ^ w := by
      have : (256 : Nat) ^ (w + 1) = 256 * 256 ^ w := by ring
      rw [this, Nat.mod_mul_right_div_self]
    have e3 : x / 256 ^ (w + 1) = x / 256 / 256 ^ w := by
      have : (256 : Nat) ^ (w + 1) = 256 * 256 ^ w := by ring
      rw [this, ← Nat.div_div_eq_div_mul]
    calc byteswap (w + 2) x
        = x % 256 * 256 ^ (w + 1) + byteswap (w + 1) (x / 256) := rfl
      _ = x % 256 * 256 ^ (w + 1)
          + (byteswap w (x / 256 % 256 ^ w) * 256 + x / 256 / 256 ^ w % 256) := by rw [ih]
      _ = (x % 256 * 256 ^ w + byteswap w (x / 256 % 256 ^ w)) * 256
          + x / 256 / 256 ^ w % 256 := by ring
      _ = (x % 256 ^ (w + 1) % 256 * 256 ^ w + byteswap w (x % 256 ^ (w + 1) / 256)) * 256
          + x / 256 ^ (w + 1) % 256 := by rw [e1, e2, e3]
      _ = byteswap (w + 1) (x % 256 ^ (w + 1)) * 256 + x / 256 ^ (w + 1) % 256 := rfl

theorem byteswap_byteswap : ∀ (w x : Nat), byteswap w (byteswap w x) = x % 256 ^ w
  | 0, x => by simp [byteswap, Nat.mod_one]
  | w + 1, x => by
    have ih := byteswap_byteswap w (x / 256)
    have hlt := byteswap_lt w (x / 256)
    have h1 : (x % 256 * 256 ^ w + byteswap w (x / 256)) % 256 ^ w = byteswap w (x / 256) := by
      rw [Nat.mul_comm (x % 256) (256 ^ w), Nat.mul_add_mod]
      exact Nat.mod_eq_of_lt hlt
    have h2 : (x % 256 * 256 ^ w + byteswap w (x / 256)) / 256 ^ w = x % 256 := by
      rw [Nat.mul_comm (x % 256) (256 ^ w), Nat.mul_add_div (Nat.pos_pow_of_pos w (by norm_num)),
        Nat.div_eq_of_lt hlt]
      omega
    have h3 : x % 256 ^ (w + 1) = x % 256 + 256 * (x / 256 % 256 ^ w) := by
      have : (256 : Nat) ^ (w + 1) = 256 * 256 ^ w := by ring
      rw [this, Nat.mod_mul]
    calc byteswap (w + 1) (byteswap (w + 1) x)
        = byteswap (w + 1) (x % 256 * 256 ^ w + byteswap w (x / 256)) := rfl
      _ = byteswap w ((x % 256 * 256 ^ w + byteswap w (x / 256)) % 256 ^ w) * 256
          + (x % 256 * 256 ^ w + byteswap w (x / 256)) / 256 ^ w % 256 := byteswap_snoc w _
      _ = byteswap w (byteswap w (x / 256)) * 256 + x % 256 % 256 := by rw [h1, h2]
      _ = x / 256 % 256 ^ w * 256 + x % 256 := by rw [ih, Nat.mod_mod_of_dvd x dvd_rfl]
      _ = x % 256 ^ (w + 1) := by omega

theorem byteswap_involutive {w x : Nat} (hx : x < 256 ^ w) : byteswap w (byteswap w x) = x := by
  rw [byteswap_byteswap, Nat.mod_eq_of_lt hx]

theorem mod_add_div_decomp (P Q x : Nat) :
    x % P + x / P % Q * P + x / (P * Q) * (P * Q) = x := by
  calc x % P + x / P % Q * P + x / (P * Q) * (P * Q)
      = x % P + P * (x / P % Q + Q * (x / (P * Q))) := by ring
    _ = x % P + P * (x / P % Q + Q * (x / P / Q)) := by rw [Nat.div_div_eq_div_mul]
    _ = x % P + P * (x / P) := by rw [Nat.mod_add_div (x / P) Q]
    _ = x := Nat.mod_add_div x P

theorem SetBits_eq_mul (x v off w : Nat) :
    SetBits x v off w
      = x % 2 ^ off + v % 2 ^ w * 2 ^ off + x / (2 ^ off * 2 ^ w) * (2 ^ off * 2 ^ w) := by
  unfold SetBits
  rw [pow_add]

theorem GetBits_SetBits (x v off w : Nat) :
    GetBits (SetBits x v off w) off w = v % 2 ^ w := by
  have hP := Nat.two_pow_pos off
  unfold GetBits
  rw [SetBits_eq_mul]
  have h1 : x % 2 ^ off + v % 2 ^ w * 2 ^ off + x / (2 ^ off * 2 ^ w) * (2 ^ off * 2 ^ w)
      = x % 2 ^ off + 2 ^ off * (v % 2 ^ w + 2 ^ w * (x / (2 ^ off * 2 ^ w))) := by ring
  rw [h1, Nat.add_mul_div_left _ _ hP, Nat.div_eq_of_lt (Nat.mod_lt x hP), Nat.zero_add,
    Nat.add_mul_mod_self_left]
  exact Nat.mod_mod_of_dvd v dvd_rfl

theorem SetBits_mod_low (x v off w : Nat) :
    SetBits x v off w % 2 ^ off = x % 2 ^ off := by
  rw [SetBits_eq_mul]
  have h1 : x % 2 ^ off + v % 2 ^ w * 2 ^ off + x / (2 ^ off * 2 ^ w) * (2 ^ off * 2 ^ w)
      = x % 2 ^ off + 2 ^ off * (v % 2 ^ w + 2 ^ w * (x / (2 ^ off * 2 ^ w))) := by ring
  rw [h1, Nat.add_mul_mod_self_left]
  exact Nat.mod_mod_of_dvd x dvd_rfl

theorem SetBits_low_lt (x v off w : Nat) :
    x % 2 ^ off + v % 2 ^ w * 2 ^ off < 2 ^ off * 2 ^ w := by
  have hP := Nat.two_pow_pos off
  have hQ := Nat.two_pow_pos w
  have h1 : x % 2 ^ off < 2 ^ off := Nat.mod_lt x hP
  have h2 : v % 2 ^ w < 2 ^ w := Nat.mod_lt v hQ
  calc x % 2 ^ off + v % 2 ^ w * 2 ^ off
      < 2 ^ off + v % 2 ^ w * 2 ^ off := Nat.add_lt_add_right h1 _
    _ = (v % 2 ^ w + 1) * 2 ^ off := by ring
    _ ≤ 2 ^ w * 2 ^ off := Nat.mul_le_mul_right _ (by omega)
    _ = 2 ^ off * 2 ^ w := Nat.mul_comm _ _

theorem SetBits_div_high (x v off w : Nat) :
    SetBits x v off w / 2 ^ (off + w) = x / 2 ^ (off + w) := by
  have hPQ : 0 < 2 ^ off * 2 ^ w := by positivity
  rw [SetBits_eq_mul, pow_add]
  have h1 : x % 2 ^ off + v % 2 ^ w * 2 ^ off + x / (2 ^ off * 2 ^ w) * (2 ^ off * 2 ^ w)
      = x % 2 ^ off + v % 2 ^ w * 2 ^ off + 2 ^ off * 2 ^ w * (x / (2 ^ off * 2 ^ w)) := by
    ring
  rw [h1, Nat.add_mul_div_left _ _ hPQ, Nat.div_eq_of_lt (SetBits_low_lt x v off w),
    Nat.zero_add]

theorem SetBits_GetBits_self (x off w : Nat) :
    SetBits x (GetBits x off w) off w = x := by
  unfold GetBits
  rw [SetBits_eq_mul, Nat.mod_mod_of_dvd _ dvd_rfl]
  exact mod_add_div_decomp (2 ^ off) (2 ^ w) x

theorem SetBits_lt {x W : Nat} (v : Nat) {off w : Nat} (hx : x < 2 ^ W)
    (hw : off + w ≤ W) : SetBits x v off w < 2 ^ W := by
  have hPQ := Nat.two_pow_pos (off + w)
  have hdiv : x / 2 ^ (off + w) + 1 ≤ 2 ^ (W - (off + w)) := by
    have hxx : x < 2 ^ (off + w) * 2 ^ (W - (off + w)) := by
      rw [← pow_add]
      have : off + w + (W - (off + w)) = W := by omega
      rw [this]
      exact hx
    have := Nat.div_lt_of_lt_mul hxx
    omega
  have hlow : x % 2 ^ off + v % 2 ^ w * 2 ^ off < 2 ^ (off + w) := by
    have := SetBits_low_lt x v off w
    rw [pow_add]
    exact this
  calc SetBits x v off w
      = x % 2 ^ off + v % 2 ^ w * 2 ^ off + x / 2 ^ (off + w) * 2 ^ (off + w) := rfl
    _ < 2 ^ (off + w) + x / 2 ^ (off + w) * 2 ^ (off + w) := Nat.add_lt_add_right hlow _
    _ = (x / 2 ^ (off + w) + 1) * 2 ^ (off + w) := by ring
    _ ≤ 2 ^ (W - (off + w)) * 2 ^ (off + w) := Nat.mul_le_mul_right _ hdiv
    _ = 2 ^ W := by
        rw [← pow_add]
        congr 1
        omega

theorem GetBits_lt (x off w : Nat) : GetBits x off w < 2 ^ w :=
  Nat.mod_lt _ (Nat.two_pow_pos w)

theorem testBit_eq_of_mod_eq {x y n : Nat} (h : x % 2 ^ n = y % 2 ^ n) {p : Nat}
    (hp : p < n) : Nat.testBit x p = Nat.testBit y p := by
  have h2 : (decide (p < n) && Nat.testBit x p) = (decide (p < n) && Nat.testBit y p) := by
    rw [← Nat.testBit_mod_two_pow, ← Nat.testBit_mod_two_pow, h]
  simpa [hp] using h2

theorem testBit_eq_of_div_eq {x y n : Nat} (h : x / 2 ^ n = y / 2 ^ n) {p : Nat}
    (hp : n ≤ p) : Nat.testBit x p = Nat.testBit y p := by
  have e : ∀ z : Nat, Nat.testBit z p = Nat.testBit (z / 2 ^ n) (p - n) := by
    intro z
    rw [← Nat.shiftRight_eq_div_pow, Nat.testBit_shiftRight]
    congr 1
    omega
  rw [e x, e y, h]

theorem SetBits_testBit_outside (x v off w : Nat) {p : Nat}
    (hp : p < off ∨ off + w ≤ p) :
    Nat.testBit (SetBits x v off w) p = Nat.testBit x p := by
  rcases hp with h | h
  · exact testBit_eq_of_mod_eq (SetBits_mod_low x v off w) h
  · exact testBit_eq_of_div_eq (SetBits_div_high x v off w) h

theorem testBit_GetBits_one (x pos : Nat) :
    Nat.testBit x pos = decide (GetBits x pos 1 = 1) := by
  rw [Nat.testBit_to_div_mod]
  unfold GetBits
  norm_num

theorem testBit_SetBit (x pos : Nat) : Nat.testBit (SetBit x pos) pos = true := by
  rw [testBit_GetBits_one]
  unfold SetBit
  rw [GetBits_SetBits]
  norm_num

theorem testBit_ClearBit (x pos : Nat) : Nat.testBit (ClearBit x pos) pos = false := by
  rw [testBit_GetBits_one]
  unfold ClearBit
  rw [GetBits_SetBits]
  norm_num

theorem SetBit_self {x pos : Nat} (h : Nat.testBit x pos = true) : SetBit x pos = x := by
  have hg : GetBits x pos 1 = 1 := by
    rw [testBit_GetBits_one] at h
    simpa using h
  unfold SetBit
  nth_rewrite 1 [← hg]
  exact SetBits_GetBits_self x pos 1

theorem ClearBit_self {x pos : Nat} (h : Nat.testBit x pos = false) : ClearBit x pos = x := by
  have hg : GetBits x pos 1 = 0 := by
    rw [testBit_GetBits_one] at h
    have h2 := GetBits_lt x pos 1
    simp only [decide_eq_false_iff_not] at h
    omega
  unfold ClearBit
  rw [← hg]
  exact SetBits_GetBits_self x pos 1
theorem IntField_Get_Set (g : IntField S) (hg : ∀ s v, g.rawGet (g.rawSet s v) = v)
    (r : S) {v : Nat} (hv : v < 256 ^ g.width) : g.Get (g.Set r v) = v := by
  unfold IntField.Get IntField.Set
  by_cases h : g.endian = Endian.native
  · simp only [h, if_true, hg]
  · simp only [h, if_neg, if_false, hg]
    exact byteswap_involutive hv

theorem IntField_Get_lt (g : IntField S) (r : S) (hr : g.rawGet r < 256 ^ g.width) :
    g.Get r < 256 ^ g.width := by
  unfold IntField.Get
  by_cases h : g.endian = Endian.native
  · simpa [h] using hr
  · simp only [h, if_neg, if_false]
    exact byteswap_lt g.width (g.rawGet r)

theorem copyElems_count (f : FlexibleArrayField S E)
    (hframe : ∀ s i e, f.countAcc.Get (f.arrSet s i e) = f.countAcc.Get s) :
    ∀ (vals : List E) (s : S) (i : Nat),
      f.countAcc.Get (f.copyElems s i vals) = f.countAcc.Get s
  | [], _, _ => rfl
  | e :: rest, s, i => by
    have h1 := copyElems_count f hframe rest (f.arrSet s i e) (i + 1)
    calc f.countAcc.Get (f.copyElems s i (e :: rest))
        = f.countAcc.Get (f.copyElems (f.arrSet s i e) (i + 1) rest) := rfl
      _ = f.countAcc.Get (f.arrSet s i e) := h1
      _ = f.countAcc.Get s := hframe s i e

theorem copyElems_congr (f : FlexibleArrayField S E) (π : S → A)
    (hset : ∀ s s' i e, π s = π s' → π (f.arrSet s i e) = π (f.arrSet s' i e)) :
    ∀ (vals : List E) (s s' : S) (i : Nat), π s = π s' →
      π (f.copyElems s i vals) = π (f.copyElems s' i vals)
  | [], _, _, _, h => h
  | e :: rest, s, s', i, h =>
    copyElems_congr f π hset rest (f.arrSet s i e) (f.arrSet s' i e) (i + 1) (hset s s' i e h)

end FieldAccessProxy

namespace FieldAccessProxy

/-- C1: for every record and every `FlexibleArrayField` with baseline
`min_fixed_count = k` whose count accessor yields raw count `c ≥ k`,
`GetAll` returns a sequence of exactly `c - k` elements copied from the
record starting at the array locator; when `c - k` is zero it returns the
empty sequence. -/
theorem getall_materializes_logical_count (f : FlexibleArrayField S E) (r : S)
    (hk : f.minFixedCount ≤ f.countAcc.Get r) :
    (f.GetAll r).length = f.countAcc.Get r - f.minFixedCount ∧
    (∀ i, i < f.countAcc.Get r - f.minFixedCount →
      (f.GetAll r)[i]? = some (f.arrGet r i)) ∧
    (f.countAcc.Get r - f.minFixedCount = 0 → f.GetAll r = []) := by
  refine ⟨?_, ?_, ?_⟩
  · simp [FlexibleArrayField.GetAll]
  · intro i hi
    simp [FlexibleArrayField.GetAll, List.getElem?_range hi]
  · intro h0
    simp [FlexibleArrayField.GetAll, h0]

/-- Witness for C1: `demoFlex` (baseline 1) over a record with raw count 3
materializes exactly 2 elements, the first two stored at the locator. -/
theorem getall_materializes_logical_count_witness :
    (demoFlex.GetAll ⟨3, 0, [10, 20, 30]⟩).length
        = demoFlex.countAcc.Get ⟨3, 0, [10, 20, 30]⟩ - demoFlex.minFixedCount ∧
    (∀ i, i < demoFlex.countAcc.Get ⟨3, 0, [10, 20, 30]⟩ - demoFlex.minFixedCount →
      (demoFlex.GetAll ⟨3, 0, [10, 20, 30]⟩)[i]?
        = some (demoFlex.arrGet ⟨3, 0, [10, 20, 30]⟩ i)) ∧
    (demoFlex.countAcc.Get ⟨3, 0, [10, 20, 30]⟩ - demoFlex.minFixedCount = 0 →
      demoFlex.GetAll ⟨3, 0, [10, 20, 30]⟩ = []) :=
  getall_materializes_logical_count demoFlex ⟨3, 0, [10, 20, 30]⟩ (by decide)

/-- C2 counterexample: the claim quantifies over any count accessor
satisfying the engine's accessor contract, but for a `Constant` count
accessor (whose `Set` is a documented no-op) `SetAll(r, values, true)`
does not make the count accessor read `values.size() + k`: here it still
reads 5 while `values.size() + k = 0`. -/
theorem setall_constant_count_counterexample :
    demoFlexConst.countAcc.Get (demoFlexConst.SetAll ⟨0, 0, []⟩ [] true)
      ≠ ([] : List Nat).length + demoFlexConst.minFixedCount := by
  decide

/-- C2 (amended): restricted to count accessors through which writes
persist (`Get` after `Set` returns the written value) and whose stored
count is disjoint from the array elements, `SetAll(r, values, true)` makes
the count accessor read `values.size() + min_fixed_count`, and
`SetAll(r, values, false)` leaves the stored count exactly as it was. -/
theorem setall_count_update (f : FlexibleArrayField S E) (r : S) (vals : List E)
    (hset : ∀ s n, f.countAcc.Get (f.countAcc.Set s n) = n)
    (hframe : ∀ s i e, f.countAcc.Get (f.arrSet s i e) = f.countAcc.Get s) :
    f.countAcc.Get (f.SetAll r vals true) = vals.length + f.minFixedCount ∧
    f.countAcc.Get (f.SetAll r vals false) = f.countAcc.Get r := by
  constructor
  · exact hset (f.copyElems r 0 vals) (vals.length + f.minFixedCount)
  · exact copyElems_count f hframe vals r 0

/-- Witness for C2 (amended): `demoFlex` (baseline 1, count stored in the
`cnt` member) over a record with stored count 9: writing two elements with
`update_count = true` makes the count accessor read 3, and with
`update_count = false` it still reads 9. -/
theorem setall_count_update_witness :
    demoFlex.countAcc.Get (demoFlex.SetAll ⟨9, 0, [1, 2, 3]⟩ [7, 8] true)
        = [7, 8].length + demoFlex.minFixedCount ∧
    demoFlex.countAcc.Get (demoFlex.SetAll ⟨9, 0, [1, 2, 3]⟩ [7, 8] false)
        = demoFlex.countAcc.Get ⟨9, 0, [1, 2, 3]⟩ :=
  setall_count_update demoFlex ⟨9, 0, [1, 2, 3]⟩ [7, 8] (fun _ _ => rfl) (fun _ _ _ => rfl)

/-- C6: `Constant(v).Get(r)` is `v` regardless of the record, and
`Constant(v).Set(r, w)` changes neither the record nor the result of a
subsequent `Get`. -/
theorem constant_accessor_noop (c : Constant T) (r : S) (w : T) :
    c.Get r = c.val ∧ c.Set r w = r ∧ c.Get (c.Set r w) = c.val :=
  ⟨rfl, rfl, rfl⟩

/-- C8: `PrintFields` over accessors `[A, B, C]` writes exactly
`A.Format(r)`, a line break, `B.Format(r)`, a line break, `C.Format(r)`,
a line break, in the caller-supplied order, and nothing else. -/
theorem printfields_order {V1 V2 V3 : Type} [ToString V1] [ToString V2] [ToString V3]
    (fa : Formattable S V1) (fb : Formattable S V2) (fc : Formattable S V3)
    (os : String) (r : S) :
    PrintFields os r [fa.Format, fb.Format, fc.Format]
      = os ++ fa.Format r ++ "\n" ++ fb.Format r ++ "\n" ++ fc.Format r ++ "\n" :=
  rfl

/-- C10: `GetAt`/`SetAt` positions are measured from the first physical
array element at the locator: the element accessed is `pos` slots after
the array base, unchanged under any `min_fixed_count` baseline (which
enters only the count arithmetic `pos < raw_count - min_fixed_count`);
in particular position 0 is the physically first element. -/
theorem getat_setat_position_from_base (f : FlexibleArrayField S E) (r : S)
    (pos : Nat) (e : E)
    (hpos : pos < f.countAcc.Get r - f.minFixedCount) :
    f.GetAt r pos = f.arrGet r pos ∧
    f.SetAt r pos e = f.arrSet r pos e ∧
    (∀ m, (f.withMin m).GetAt r pos = f.GetAt r pos ∧
      (f.withMin m).SetAt r pos e = f.SetAt r pos e) ∧
    f.GetAt r 0 = f.arrGet r 0 :=
  ⟨rfl, rfl, fun _ => ⟨rfl, rfl⟩, rfl⟩

/-- Witness for C10: `demoFlex` has baseline 1, yet `GetAt` at position 0
of a record with raw count 3 reads the physically first element. -/
theorem getat_setat_position_from_base_witness :
    demoFlex.GetAt ⟨3, 0, [10, 20, 30]⟩ 0 = demoFlex.arrGet ⟨3, 0, [10, 20, 30]⟩ 0 ∧
    demoFlex.SetAt ⟨3, 0, [10, 20, 30]⟩ 0 99 = demoFlex.arrSet ⟨3, 0, [10, 20, 30]⟩ 0 99 ∧
    (∀ m, ((demoFlex.withMin m).GetAt ⟨3, 0, [10, 20, 30]⟩ 0
        = demoFlex.GetAt ⟨3, 0, [10, 20, 30]⟩ 0 ∧
      (demoFlex.withMin m).SetAt ⟨3, 0, [10, 20, 30]⟩ 0 99
        = demoFlex.SetAt ⟨3, 0, [10, 20, 30]⟩ 0 99)) ∧
    demoFlex.GetAt ⟨3, 0, [10, 20, 30]⟩ 0 = demoFlex.arrGet ⟨3, 0, [10, 20, 30]⟩ 0 :=
  getat_setat_position_from_base demoFlex ⟨3, 0, [10, 20, 30]⟩ 0 99 (by decide)

end FieldAccessProxy

namespace FieldAccessProxy

/-- C7: with a custom formatter supplied at construction, `Format(r)`
equals the formatter applied to `(record, value)`; without one (for a
text-representable value type), `Format(r)` is the default string
`"<name>: <value>"`. -/
theorem format_formatter_precedence [ToString V] (fm : Formattable S V) (r : S) :
    (∀ g, fm.formatter = some g → fm.Format r = g r (fm.get r)) ∧
    (fm.formatter = none → fm.Format r = fm.name ++ ": " ++ toString (fm.get r)) := by
  constructor
  · intro g hg
    unfold Formattable.Format
    rw [hg]
  · intro h
    unfold Formattable.Format
    rw [h]

/-- Witness for C7: the field named `X` holding value 5 formats as
`X: 5` by default, and the custom formatter's output takes precedence. -/
theorem format_formatter_precedence_witness :
    demoFmt.Format ⟨0, 5, []⟩ = "X: 5" ∧
    demoFmtCustom.Format ⟨0, 5, []⟩ = "custom 5" := by
  have h1 := (format_formatter_precedence demoFmt ⟨0, 5, []⟩).2 rfl
  have h2 := (format_formatter_precedence demoFmtCustom ⟨0, 5, []⟩).1
    (fun _ v => "custom " ++ toString v) rfl
  exact ⟨by rw [h1]; rfl, by rw [h2]; rfl⟩

/-- C9: `SetAll` never reads the stored count. For any projection `π`
erasing exactly the stored count (array writes and the count write are
oblivious to the erased part), two records that agree under `π` — i.e.
differ only in what the count accessor reads — receive identical element
writes, and with `update_count = true` the resulting records are equal. -/
theorem setall_ignores_stored_count (f : FlexibleArrayField S E) (π : S → A)
    (r1 r2 : S) (vals : List E) (uc : Bool)
    (hπ : π r1 = π r2)
    (hset : ∀ s s' i e, π s = π s' → π (f.arrSet s i e) = π (f.arrSet s' i e))
    (hcnt : ∀ s s' n, π s = π s' → f.countAcc.Set s n = f.countAcc.Set s' n) :
    π (f.SetAll r1 vals uc) = π (f.SetAll r2 vals uc) ∧
    f.SetAll r1 vals true = f.SetAll r2 vals true := by
  have hw := copyElems_congr f π hset vals r1 r2 0 hπ
  have heq : f.countAcc.Set (f.copyElems r1 0 vals) (vals.length + f.minFixedCount)
      = f.countAcc.Set (f.copyElems r2 0 vals) (vals.length + f.minFixedCount) :=
    hcnt _ _ _ hw
  refine ⟨?_, heq⟩
  cases uc
  · exact hw
  · exact congrArg π heq

/-- Witness for C9: two records differing only in the stored count (0
versus 7) receive identical writes from `SetAll`, and are equal after
`SetAll` with `update_count = true`. -/
theorem setall_ignores_stored_count_witness :
    (fun (r : DemoRec) => (r.word, r.arr)) (demoFlex.SetAll ⟨0, 1, [9]⟩ [4] false)
        = (fun (r : DemoRec) => (r.word, r.arr)) (demoFlex.SetAll ⟨7, 1, [9]⟩ [4] false) ∧
    demoFlex.SetAll ⟨0, 1, [9]⟩ [4] true = demoFlex.SetAll ⟨7, 1, [9]⟩ [4] true := by
  refine setall_ignores_stored_count demoFlex (fun r => (r.word, r.arr))
    ⟨0, 1, [9]⟩ ⟨7, 1, [9]⟩ [4] false rfl ?_ ?_
  · intro s s' i e h
    have h1 : s.word = s'.word := congrArg Prod.fst h
    have h2 : s.arr = s'.arr := congrArg Prod.snd h
    show (s.word, (s.arr.set i e)) = (s'.word, (s'.arr.set i e))
    rw [h1, h2]
  · intro s s' n h
    have h1 : s.word = s'.word := congrArg Prod.fst h
    have h2 : s.arr = s'.arr := congrArg Prod.snd h
    show (DemoRec.mk n s.word s.arr) = (DemoRec.mk n s'.word s'.arr)
    rw [h1, h2]

end FieldAccessProxy

namespace FieldAccessProxy

/-- C3: for `Field` (both integral and generic), `BitField` and
`BoolField` accessors, `Set` then `Get` returns the value written
(byte-order-normalized, for values representable in the declared width),
and `Set(r, Get(r))` then `Get(r)` returns the value originally read.
Lens-law hypotheses encode the C++ pointer-to-member/parent-accessor
write-then-read memory semantics. -/
theorem get_after_set_roundtrip
    (fld : Field S V) (r1 : S) (v1 : V)
    (hfld : ∀ s v, fld.fieldGet (fld.fieldSet s v) = v)
    (g : IntField S) (r2 : S) (v2 : Nat)
    (hg : ∀ s v, g.rawGet (g.rawSet s v) = v)
    (hv2 : v2 < 256 ^ g.width) (hr2 : g.rawGet r2 < 256 ^ g.width)
    (b : BitField S) (W : Nat) (r3 : S) (v3 : Nat)
    (hbp : ∀ s x, x < 2 ^ W → b.parent.Get (b.parent.Set s x) = x)
    (hb3 : b.parent.Get r3 < 2 ^ W) (hbw : b.bitOffset + b.bitWidth ≤ W)
    (hv3 : v3 < 2 ^ b.bitWidth)
    (c : BoolField S) (W2 : Nat) (r4 : S) (v4 : Bool)
    (hcp : ∀ s x, x < 2 ^ W2 → c.parent.Get (c.parent.Set s x) = x)
    (hc4 : c.parent.Get r4 < 2 ^ W2) (hcw : c.bitPos < W2) :
    fld.Get (fld.Set r1 v1) = v1 ∧
    fld.Get (fld.Set r1 (fld.Get r1)) = fld.Get r1 ∧
    g.Get (g.Set r2 v2) = v2 ∧
    g.Get (g.Set r2 (g.Get r2)) = g.Get r2 ∧
    b.Get (b.Set r3 v3) = v3 ∧
    b.Get (b.Set r3 (b.Get r3)) = b.Get r3 ∧
    c.Get (c.Set r4 v4) = v4 ∧
    c.Get (c.Set r4 (c.Get r4)) = c.Get r4 := by
  refine ⟨hfld r1 v1, hfld r1 _, IntField_Get_Set g hg r2 hv2,
    IntField_Get_Set g hg r2 (IntField_Get_lt g r2 hr2), ?_, ?_, ?_, ?_⟩
  · show GetBits (b.parent.Get (b.parent.Set r3
        (SetBits (b.parent.Get r3) v3 b.bitOffset b.bitWidth))) b.bitOffset b.bitWidth = v3
    rw [hbp _ _ (SetBits_lt v3 hb3 hbw), GetBits_SetBits, Nat.mod_eq_of_lt hv3]
  · show GetBits (b.parent.Get (b.parent.Set r3
        (SetBits (b.parent.Get r3)
          (GetBits (b.parent.Get r3) b.bitOffset b.bitWidth) b.bitOffset b.bitWidth)))
        b.bitOffset b.bitWidth
      = GetBits (b.parent.Get r3) b.bitOffset b.bitWidth
    rw [SetBits_GetBits_self, hbp _ _ hb3]
  · have hclt : ClearBit (c.parent.Get r4) c.bitPos < 2 ^ W2 :=
      SetBits_lt 0 hc4 (by omega)
    have hslt : SetBit (c.parent.Get r4) c.bitPos < 2 ^ W2 :=
      SetBits_lt 1 hc4 (by omega)
    cases v4
    · show IsBitSet (c.parent.Get (c.parent.Set r4
          (ClearBit (c.parent.Get r4) c.bitPos))) c.bitPos = false
      rw [hcp _ _ hclt]
      exact testBit_ClearBit _ _
    · show IsBitSet (c.parent.Get (c.parent.Set r4
          (SetBit (c.parent.Get r4) c.bitPos))) c.bitPos = true
      rw [hcp _ _ hslt]
      exact testBit_SetBit _ _
  · cases hv : c.Get r4
    · have ht : Nat.testBit (c.parent.Get r4) c.bitPos = false := hv
      show IsBitSet (c.parent.Get (c.parent.Set r4
          (ClearBit (c.parent.Get r4) c.bitPos))) c.bitPos = false
      rw [ClearBit_self ht, hcp _ _ hc4]
      exact ht
    · have ht : Nat.testBit (c.parent.Get r4) c.bitPos = true := hv
      show IsBitSet (c.parent.Get (c.parent.Set r4
          (SetBit (c.parent.Get r4) c.bitPos))) c.bitPos = true
      rw [SetBit_self ht, hcp _ _ hc4]
      exact ht

/-- Witness for C3: concrete round-trips through the `DemoRec` proxies —
a plain field, a big-endian 2-byte field, a 3-bit field at offset 2, and
a boolean bit at position 4. -/
theorem get_after_set_roundtrip_witness :
    cntField.Get (cntField.Set ⟨1, 2, []⟩ 42) = 42 ∧
    wordFieldBig.Get (wordFieldBig.Set ⟨0, 9, []⟩ 4660) = 4660 ∧
    demoBitField.Get (demoBitField.Set ⟨181, 0, []⟩ 5) = 5 ∧
    demoBoolField.Get (demoBoolField.Set ⟨90, 0, []⟩ true) = true := by
  have h := get_after_set_roundtrip cntField ⟨1, 2, []⟩ 42 (fun _ _ => rfl)
    wordFieldBig ⟨0, 9, []⟩ 4660 (fun _ _ => rfl) (by decide) (by decide)
    demoBitField 8 ⟨181, 0, []⟩ 5 (fun _ _ _ => rfl) (by decide) (by decide) (by decide)
    demoBoolField 8 ⟨90, 0, []⟩ true (fun _ _ _ => rfl) (by decide) (by decide)
  exact ⟨h.1, h.2.2.1, h.2.2.2.2.1, h.2.2.2.2.2.2.1⟩

/-- C4: `BitField::Set` changes only the declared bit range of the parent
value — every parent bit outside `[bit_offset, bit_offset + bit_width)`
reads back unchanged; `BoolField.Set(r, true)` sets exactly the bit at
`bit_pos` (`Get` then reads true), `Set(r, false)` clears it, and no other
parent bit changes. -/
theorem bitfield_set_bit_isolation
    (b : BitField S) (W : Nat) (r : S) (v : Nat)
    (hbp : ∀ s x, x < 2 ^ W → b.parent.Get (b.parent.Set s x) = x)
    (hb : b.parent.Get r < 2 ^ W) (hbw : b.bitOffset + b.bitWidth ≤ W)
    (c : BoolField S) (W2 : Nat) (r2 : S)
    (hcp : ∀ s x, x < 2 ^ W2 → c.parent.Get (c.parent.Set s x) = x)
    (hc : c.parent.Get r2 < 2 ^ W2) (hcw : c.bitPos < W2) :
    (∀ p, p < b.bitOffset ∨ b.bitOffset + b.bitWidth ≤ p →
      Nat.testBit (b.parent.Get (b.Set r v)) p = Nat.testBit (b.parent.Get r) p) ∧
    c.Get (c.Set r2 true) = true ∧
    (∀ p, p ≠ c.bitPos →
      Nat.testBit (c.parent.Get (c.Set r2 true)) p
        = Nat.testBit (c.parent.Get r2) p) ∧
    c.Get (c.Set r2 false) = false ∧
    (∀ p, p ≠ c.bitPos →
      Nat.testBit (c.parent.Get (c.Set r2 false)) p
        = Nat.testBit (c.parent.Get r2) p) := by
  have hsb : SetBit (c.parent.Get r2) c.bitPos < 2 ^ W2 := SetBits_lt 1 hc (by omega)
  have hcb : ClearBit (c.parent.Get r2) c.bitPos < 2 ^ W2 := SetBits_lt 0 hc (by omega)
  refine ⟨?_, ?_, ?_, ?_, ?_⟩
  · intro p hp
    show Nat.testBit (b.parent.Get (b.parent.Set r
        (SetBits (b.parent.Get r) v b.bitOffset b.bitWidth))) p
      = Nat.testBit (b.parent.Get r) p
    rw [hbp _ _ (SetBits_lt v hb hbw)]
    exact SetBits_testBit_outside _ _ _ _ hp
  · show IsBitSet (c.parent.Get (c.parent.Set r2
        (SetBit (c.parent.Get r2) c.bitPos))) c.bitPos = true
    rw [hcp _ _ hsb]
    exact testBit_SetBit _ _
  · intro p hp
    show Nat.testBit (c.parent.Get (c.parent.Set r2
        (SetBit (c.parent.Get r2) c.bitPos))) p = Nat.testBit (c.parent.Get r2) p
    rw [hcp _ _ hsb]
    exact SetBits_testBit_outside _ _ _ _ (by omega)
  · show IsBitSet (c.parent.Get (c.parent.Set r2
        (ClearBit (c.parent.Get r2) c.bitPos))) c.bitPos = false
    rw [hcp _ _ hcb]
    exact testBit_ClearBit _ _
  · intro p hp
    show Nat.testBit (c.parent.Get (c.parent.Set r2
        (ClearBit (c.parent.Get r2) c.bitPos))) p = Nat.testBit (c.parent.Get r2) p
    rw [hcp _ _ hcb]
    exact SetBits_testBit_outside _ _ _ _ (by omega)

/-- Witness for C4: the 3-bit field at offset 2 and the boolean bit at
position 4 over `DemoRec.cnt`, at concrete records. -/
theorem bitfield_set_bit_isolation_witness :
    (∀ p, p < demoBitField.bitOffset ∨ demoBitField.bitOffset + demoBitField.bitWidth ≤ p →
      Nat.testBit (demoBitField.parent.Get (demoBitField.Set ⟨181, 0, []⟩ 5)) p
        = Nat.testBit (demoBitField.parent.Get ⟨181, 0, []⟩) p) ∧
    demoBoolField.Get (demoBoolField.Set ⟨90, 0, []⟩ true) = true ∧
    (∀ p, p ≠ demoBoolField.bitPos →
      Nat.testBit (demoBoolField.parent.Get (demoBoolField.Set ⟨90, 0, []⟩ true)) p
        = Nat.testBit (demoBoolField.parent.Get ⟨90, 0, []⟩) p) ∧
    demoBoolField.Get (demoBoolField.Set ⟨90, 0, []⟩ false) = false ∧
    (∀ p, p ≠ demoBoolField.bitPos →
      Nat.testBit (demoBoolField.parent.Get (demoBoolField.Set ⟨90, 0, []⟩ false)) p
        = Nat.testBit (demoBoolField.parent.Get ⟨90, 0, []⟩) p) :=
  bitfield_set_bit_isolation demoBitField 8 ⟨181, 0, []⟩ 5 (fun _ _ _ => rfl)
    (by decide) (by decide)
    demoBoolField 8 ⟨90, 0, []⟩ (fun _ _ _ => rfl) (by decide) (by decide)

/-- C5: for an integral `Field` with a byte-order tag differing from
native order, `Set(r, x)` stores `byteswap(x)` as the raw field bytes and
`Get` then returns `x`; with the native tag `Get`/`Set` apply no
byte-swap, and a non-integral `Field` applies no transform at all. -/
theorem intfield_byteorder_symmetry
    (g : IntField S) (r : S) (x : Nat)
    (hg : ∀ s v, g.rawGet (g.rawSet s v) = v)
    (hx : x < 256 ^ g.width)
    (fld : Field S V) (r2 : S) (v : V) :
    (g.endian ≠ Endian.native →
      g.rawGet (g.Set r x) = byteswap g.width x ∧ g.Get (g.Set r x) = x) ∧
    (g.endian = Endian.native →
      g.rawGet (g.Set r x) = x ∧ g.Get r = g.rawGet r ∧ g.Set r x = g.rawSet r x) ∧
    fld.Get r2 = fld.fieldGet r2 ∧ fld.Set r2 v = fld.fieldSet r2 v := by
  refine ⟨?_, ?_, rfl, rfl⟩
  · intro hne
    constructor
    · show g.rawGet (g.rawSet r
          (if g.endian = Endian.native then x else byteswap g.width x)) = _
      rw [if_neg hne, hg]
    · exact IntField_Get_Set g hg r hx
  · intro heq
    refine ⟨?_, ?_, ?_⟩
    · show g.rawGet (g.rawSet r
          (if g.endian = Endian.native then x else byteswap g.width x)) = x
      rw [if_pos heq, hg]
    · show (if g.endian = Endian.native then g.rawGet r
          else byteswap g.width (g.rawGet r)) = g.rawGet r
      rw [if_pos heq]
    · show g.rawSet r (if g.endian = Endian.native then x else byteswap g.width x)
        = g.rawSet r x
      rw [if_pos heq]

/-- Witness for C5: the big-endian 2-byte proxy stores `byteswap(0x1234)`
raw and reads back `0x1234`; the native proxy stores and reads raw. -/
theorem intfield_byteorder_symmetry_witness :
    wordFieldBig.rawGet (wordFieldBig.Set ⟨0, 9, []⟩ 4660)
        = byteswap wordFieldBig.width 4660 ∧
    wordFieldBig.Get (wordFieldBig.Set ⟨0, 9, []⟩ 4660) = 4660 ∧
    wordFieldNative.rawGet (wordFieldNative.Set ⟨0, 9, []⟩ 4660) = 4660 ∧
    wordFieldNative.Get ⟨0, 9, []⟩ = wordFieldNative.rawGet ⟨0, 9, []⟩ := by
  have h1 := intfield_byteorder_symmetry wordFieldBig ⟨0, 9, []⟩ 4660 (fun _ _ => rfl)
    (by decide) cntField ⟨0, 0, []⟩ 0
  have h2 := intfield_byteorder_symmetry wordFieldNative ⟨0, 9, []⟩ 4660 (fun _ _ => rfl)
    (by decide) cntField ⟨0, 0, []⟩ 0
  have ha := h1.1 (by decide)
  have hb := h2.2.1 (by decide)
  exact ⟨ha.1, ha.2, hb.1, hb.2.1⟩

end FieldAccessProxy
